import Mathlib

/-
Verification of the file-context-mcp core against its specification.

The development shallowly embeds the TypeScript sources:
  - src/utils/fileUtils.ts   (isTextFile, sanitizePath)
  - src/utils/promptUtils.ts (truncateContext)
  - src/core/fileSystem.ts   (FileSystemTools, ModelInterface)

JavaScript strings are modelled as Lean `String` (operated on through
their `List Char` of code points); the Node `path` library functions
used by the code (`normalize`, `resolve`, `join`, `basename`,
`extname`) are embedded for the POSIX flavour, with the process
working directory passed explicitly as a parameter.  Asynchronous
filesystem and HTTP calls are modelled by passing the outcome of the
external call as an explicit argument: `Except` for fs promises and
an `AxiosResult` sum for axios, so a JS `try`/`catch` becomes a match
on that outcome.  The float comparison `lastNewline > maxLength * 0.8`
is modelled by the exact rational comparison `4 * maxLength < 5 * i`.
-/

set_option maxRecDepth 4000

/-! ## Generic list/string helpers -/

/-- Boolean list-prefix test (used to state lexical path containment). -/
def isPre : List Char → List Char → Bool
  | [], _ => true
  | _ :: _, [] => false
  | a :: as, b :: bs => a == b && isPre as bs

/-- Boolean list-suffix test (used to state which marker a truncated string ends with). -/
def isSuf (a b : List Char) : Bool :=
  isPre a.reverse b.reverse

/-- Index of the last occurrence of `c` in the list, as in JS `String.prototype.lastIndexOf`
(`none` plays the role of `-1`). -/
def lastIdxOf (c : Char) : List Char → Option Nat
  | [] => none
  | x :: xs =>
    match lastIdxOf c xs with
    | some i => some (i + 1)
    | none => if x = c then some 0 else none

/-! ## promptUtils.truncateContext (src/utils/promptUtils.ts)

```ts
truncateContext(context: string, maxLength: number = 4000): string {
  if (context.length <= maxLength) return context;
  const truncated = context.slice(0, maxLength);
  const lastNewline = truncated.lastIndexOf('\n');
  if (lastNewline > maxLength * 0.8) {
    return truncated.slice(0, lastNewline) + '\n... (truncated)';
  }
  return truncated + '... (truncated)';
}
```
-/

/-- The two return paths of the over-limit case, switching on the value
of `lastIndexOf('\n')` (`none` = `-1`, which never beats `0.8 * maxLength`). -/
def truncAfter (truncated : List Char) (maxLength : Nat) : Option Nat → List Char
  | some i =>
    if 4 * maxLength < 5 * i then truncated.take i ++ ("\n... (truncated)").data
    else truncated ++ ("... (truncated)").data
  | none => truncated ++ ("... (truncated)").data

def truncateContext (context : String) (maxLength : Nat) : String :=
  if context.data.length ≤ maxLength then context
  else
    String.mk (truncAfter (context.data.take maxLength) maxLength
      (lastIdxOf '\n' (context.data.take maxLength)))

/-! ## fileUtils.isTextFile (src/utils/fileUtils.ts)

`path.extname` (POSIX) returns the part of the basename from its last dot,
except that a dot in leading position of the basename yields `''`, as do
the special names `.` and `..`.
-/

/-- Characters of `path.basename p`: the part after the last separator,
with trailing separators stripped first. -/
def basenameChars (p : List Char) : List Char :=
  ((p.reverse.dropWhile (fun c => c == '/')).takeWhile (fun c => !(c == '/'))).reverse

/-- Embedding of Node `path.posix.extname`. -/
def extname (p : String) : String :=
  if basenameChars p.data = ['.', '.'] then ("")
  else
    match lastIdxOf '.' (basenameChars p.data) with
    | none => ("")
    | some 0 => ("")
    | some (i + 1) => String.mk ((basenameChars p.data).drop (i + 1))

/-- JS `String.prototype.toLowerCase` restricted to per-character lowering
(the recognized extensions are ASCII). -/
def jsToLowerCase (s : String) : String :=
  String.mk (s.data.map Char.toLower)

def textExtensions : List String :=
  [(".txt"), (".md"), (".js"), (".ts"), (".json"), (".yaml"), (".yml"),
   (".html"), (".css"), (".csv"), (".xml"), (".log"), (".env"),
   (".jsx"), (".tsx"), (".py"), (".java"), (".cpp"), (".c"), (".h")]

def isTextFile (filePath : String) : Bool :=
  textExtensions.contains (jsToLowerCase (extname filePath))

/-! ## ModelInterface (src/core/fileSystem.ts, lines 56-124)

The outcome of an `axios.post` call is passed in explicitly: either the
parsed body (`ok`) or a thrown value (`threw`), the latter carrying
whether it was an `Error` instance and its `message`.  JS truthiness of
`response.data` / `response.data.response` is modelled with `Option`
(`none` = absent/undefined) plus an explicit emptiness test, because the
empty string is falsy in JS.
-/

structure LLMResponse where
  text : String
  model : String
  error : Option String := none
deriving DecidableEq, Repr

inductive AxiosResult (α : Type) where
  | ok (data : α)
  | threw (isError : Bool) (message : String)

structure OllamaData where
  response : Option String
deriving DecidableEq, Repr

structure TogetherOutput where
  text : String
deriving DecidableEq, Repr

structure TogetherData where
  output : Option TogetherOutput
deriving DecidableEq, Repr

/-- `error instanceof Error ? error.message : 'Unknown error'` -/
def jsCaughtMessage (isError : Bool) (message : String) : String :=
  if isError then message else ("Unknown error")

def queryOllama (result : AxiosResult (Option OllamaData)) : LLMResponse :=
  match result with
  | .threw isErr msg =>
    { text := (""), model := ("ollama"), error := some (jsCaughtMessage isErr msg) }
  | .ok none =>
    { text := (""), model := ("ollama"), error := some ("Invalid response from Ollama") }
  | .ok (some d) =>
    match d.response with
    | none =>
      { text := (""), model := ("ollama"), error := some ("Invalid response from Ollama") }
    | some t =>
      if t = ("") then
        { text := (""), model := ("ollama"), error := some ("Invalid response from Ollama") }
      else { text := t, model := ("ollama") }

/-- `response.data.output.text` with no check: a missing `data` or `output`
raises a TypeError (caught by the surrounding catch); a present but empty
text is returned as a success. -/
def queryTogether (result : AxiosResult (Option TogetherData)) : LLMResponse :=
  match result with
  | .threw isErr msg =>
    { text := (""), model := ("together"), error := some (jsCaughtMessage isErr msg) }
  | .ok none =>
    { text := (""), model := ("together"),
      error := some ("Cannot read properties of undefined (reading 'output')") }
  | .ok (some d) =>
    match d.output with
    | none =>
      { text := (""), model := ("together"),
        error := some ("Cannot read properties of undefined (reading 'text')") }
    | some o => { text := o.text, model := ("together") }

/-! ## Node path library (POSIX), embedded

`path.normalize` splits on `/`, processes segments with a stack
(skipping empty and `.` segments, popping on `..`, and — for relative
paths only — accumulating leading `..` segments), rejoins, and restores
a leading and/or trailing separator.  `path.resolve(p)` prepends the
process working directory when `p` is not absolute and normalizes
without keeping any `..` (its `allowAboveRoot` is false), never keeping
a trailing separator.
-/

/-- The `..` segment. -/
def dd : List Char := ['.', '.']

def consHead (c : Char) : List (List Char) → List (List Char)
  | [] => [[c]]
  | s :: ss => (c :: s) :: ss

/-- Split on `'/'` (semantics of JS `String.prototype.split('/')`). -/
def sepSplit : List Char → List (List Char)
  | [] => [[]]
  | c :: cs => if c = '/' then [] :: sepSplit cs else consHead c (sepSplit cs)

/-- Join segments with `'/'` (JS `Array.prototype.join('/')`). -/
def joinSegs : List (List Char) → List Char
  | [] => []
  | [s] => s
  | s :: ss => s ++ '/' :: joinSegs ss

/-- One step of Node's `normalizeString` over an already-split segment,
with the result stack kept in reverse order.  `aar` is `allowAboveRoot`. -/
def normStep (aar : Bool) (stack : List (List Char)) (seg : List Char) : List (List Char) :=
  if seg = [] ∨ seg = ['.'] then stack
  else if seg = dd then
    match stack with
    | [] => if aar then [dd] else []
    | t :: rest => if t = dd then (if aar then dd :: stack else stack) else rest
  else seg :: stack

def normSegs (aar : Bool) (segs : List (List Char)) : List (List Char) :=
  (segs.foldl (normStep aar) []).reverse

/-- Reassembly step of `path.posix.normalize` after `normalizeString`. -/
def normAssemble (isAbs trailing : Bool) (body : List Char) : List Char :=
  if body = [] then (if isAbs then ['/'] else if trailing then ['.', '/'] else ['.'])
  else if isAbs then '/' :: (if trailing then body ++ ['/'] else body)
  else (if trailing then body ++ ['/'] else body)

/-- Embedding of `path.posix.normalize`. -/
def normalizeList (cs : List Char) : List Char :=
  if cs = [] then ['.']
  else
    normAssemble (cs.head? == some '/') (cs.getLast? == some '/')
      (joinSegs (normSegs (!(cs.head? == some '/')) (sepSplit cs)))

/-- `.replace(/^(\.\.(\/|\\|$))+/, '')`: repeatedly strip a leading `../`,
a leading `..\`, or a whole `..`. -/
def stripTraversal : List Char → List Char
  | [] => []
  | [c] => [c]
  | [c1, c2] => if c1 = '.' ∧ c2 = '.' then [] else [c1, c2]
  | c1 :: c2 :: c3 :: rest =>
    if c1 = '.' ∧ c2 = '.' ∧ (c3 = '/' ∨ c3 = '\\') then stripTraversal rest
    else c1 :: c2 :: c3 :: rest

def resolveAbs (combined : List Char) : List Char :=
  if combined.head? == some '/' then '/' :: joinSegs (normSegs false (sepSplit combined))
  else if joinSegs (normSegs true (sepSplit combined)) = [] then ['.']
  else joinSegs (normSegs true (sepSplit combined))

/-- Embedding of `path.resolve(cs)` with the process working directory `cwd`
passed explicitly. -/
def resolveList (cwd cs : List Char) : List Char :=
  resolveAbs (if cs.head? == some '/' then cs else cwd ++ '/' :: cs)

/-- fileUtils.sanitizePath:

```ts
sanitizePath(inputPath: string): string {
  const normalizedPath = path.normalize(inputPath).replace(/^(\.\.(\/|\\|$))+/, '');
  return path.resolve(normalizedPath);
}
```
-/
def sanitizePath (cwd : String) (inputPath : String) : String :=
  String.mk (resolveList cwd.data (stripTraversal (normalizeList inputPath.data)))

/-- Lexical containment of `p` in the directory `root`: `p` is `root`
itself or extends it past a separator. -/
def lexWithin (root p : String) : Bool :=
  decide (p = root) || isPre (root.data ++ ['/']) p.data

/-- A normal path segment: nonempty, not `.`, not `..`, and without a
separator. -/
def goodSeg (s : List Char) : Prop :=
  s ≠ [] ∧ s ≠ ['.'] ∧ s ≠ dd ∧ '/' ∉ s

/-! ## FileSystemTools (src/core/fileSystem.ts, lines 1-55)

The filesystem is a finite map from path strings to nodes; a directory
node carries the names and kinds of its immediate children, and every
node carries a readability flag.  The `fs/promises` primitives return
`Except JsError`, where `JsError` models a thrown Node error: `code` is
the `errno` tag carried by errors coming out of `fs` (`none` for a
plain `new Error(...)`), `message` the JS message.  A rejected promise
inside `try` transfers control to `catch`; `fs.stat` in
`getContextFromPath` is outside any `try` and so propagates its error
unchanged.
-/

structure JsError where
  code : Option String
  message : String
deriving DecidableEq, Repr

inductive FileType where
  | file
  | directory
deriving DecidableEq, Repr

/-- The `FileInfo` interface of fileSystem.ts (`content?` optional). -/
structure FileInfo where
  name : String
  path : String
  type : FileType
  content : Option String := none
deriving DecidableEq, Repr

inductive FsNode where
  | file (content : String) (readable : Bool)
  | dir (entries : List (String × FileType)) (readable : Bool)
deriving DecidableEq, Repr

abbrev FS := List (String × FsNode)

def lookupFs (fs : FS) (p : String) : Option FsNode :=
  match fs.find? (fun e => e.fst == p) with
  | some e => some e.snd
  | none => none

def fsStat (fs : FS) (p : String) : Except JsError FileType :=
  match lookupFs fs p with
  | some (.file _ _) => .ok .file
  | some (.dir _ _) => .ok .directory
  | none =>
    .error { code := some ("ENOENT"),
             message := ("ENOENT: no such file or directory, stat '") ++ p ++ ("'") }

def fsReaddir (fs : FS) (p : String) : Except JsError (List (String × FileType)) :=
  match lookupFs fs p with
  | some (.dir entries true) => .ok entries
  | some (.dir _ false) =>
    .error { code := some ("EACCES"),
             message := ("EACCES: permission denied, scandir '") ++ p ++ ("'") }
  | some (.file _ _) =>
    .error { code := some ("ENOTDIR"),
             message := ("ENOTDIR: not a directory, scandir '") ++ p ++ ("'") }
  | none =>
    .error { code := some ("ENOENT"),
             message := ("ENOENT: no such file or directory, scandir '") ++ p ++ ("'") }

def fsReadFile (fs : FS) (p : String) : Except JsError String :=
  match lookupFs fs p with
  | some (.file c true) => .ok c
  | some (.file _ false) =>
    .error { code := some ("EACCES"),
             message := ("EACCES: permission denied, open '") ++ p ++ ("'") }
  | some (.dir _ _) =>
    .error { code := some ("EISDIR"),
             message := ("EISDIR: illegal operation on a directory, read") }
  | none =>
    .error { code := some ("ENOENT"),
             message := ("ENOENT: no such file or directory, open '") ++ p ++ ("'") }

/-- `path.posix.join(a, b)`: empty parts are dropped, the rest joined
with `'/'` and normalized. -/
def pathJoin (a b : String) : String :=
  if a = ("") ∧ b = ("") then (".")
  else if a = ("") then String.mk (normalizeList b.data)
  else if b = ("") then String.mk (normalizeList a.data)
  else String.mk (normalizeList (a.data ++ '/' :: b.data))

/-- `path.basename`. -/
def basename (p : String) : String :=
  String.mk (basenameChars p.data)

/-- FileSystemTools.readDirectory: lists entries with name, joined path
and kind — no `content` is ever attached; any `readdir` failure is
caught and rethrown as a plain `new Error` with a prefixed message
(fs errors are `Error` instances, so the `instanceof` test picks
`error.message`). -/
def readDirectory (fs : FS) (dirPath : String) : Except JsError (List FileInfo) :=
  match fsReaddir fs dirPath with
  | .ok entries =>
    .ok (entries.map (fun e =>
      { name := e.fst, path := pathJoin dirPath e.fst, type := e.snd, content := none }))
  | .error e =>
    .error { code := none, message := ("Failed to read directory: ") ++ e.message }

/-- FileSystemTools.readFile. -/
def readFile (fs : FS) (filePath : String) : Except JsError FileInfo :=
  match fsReadFile fs filePath with
  | .ok content =>
    .ok { name := basename filePath, path := filePath, type := .file, content := some content }
  | .error e =>
    .error { code := none, message := ("Failed to read file: ") ++ e.message }

/-- FileSystemTools.getContextFromPath. -/
def getContextFromPath (fs : FS) (targetPath : String) : Except JsError (List FileInfo) :=
  match fsStat fs targetPath with
  | .error e => .error e
  | .ok .directory => readDirectory fs targetPath
  | .ok .file =>
    match readFile fs targetPath with
    | .ok fi => .ok [fi]
    | .error e => .error e

instance instDecidableEqExcept {ε α : Type} [DecidableEq ε] [DecidableEq α] :
    DecidableEq (Except ε α) := fun x y =>
  match x, y with
  | .ok a, .ok b =>
    if h : a = b then isTrue (by rw [h])
    else isFalse (by intro e; injection e; exact h (by assumption))
  | .error a, .error b =>
    if h : a = b then isTrue (by rw [h])
    else isFalse (by intro e; injection e; exact h (by assumption))
  | .ok a, .error b => isFalse (by intro e; exact Except.noConfusion e)
  | .error a, .ok b => isFalse (by intro e; exact Except.noConfusion e)

/-! ## Helper lemmas -/

theorem isPre_append_self : ∀ (a t : List Char), isPre a (a ++ t) = true := by
  intro a
  induction a with
  | nil => intro t; rfl
  | cons x xs ih => intro t; simp [isPre, ih]

theorem isSuf_append_self (a x : List Char) : isSuf a (x ++ a) = true := by
  unfold isSuf
  rw [List.reverse_append]
  exact isPre_append_self _ _

theorem lastIdxOf_spec {c : Char} :
    ∀ {l : List Char} {i : Nat}, lastIdxOf c l = some i → i < l.length ∧ l[i]? = some c := by
  intro l
  induction l with
  | nil => intro i h; simp [lastIdxOf] at h
  | cons x xs ih =>
    intro i h
    unfold lastIdxOf at h
    cases h' : lastIdxOf c xs with
    | some j =>
      rw [h'] at h
      simp at h
      obtain ⟨hjlt, hjget⟩ := ih h'
      subst h
      refine ⟨by simpa using Nat.succ_lt_succ hjlt, ?_⟩
      simpa using hjget
    | none =>
      rw [h'] at h
      by_cases hx : x = c
      · simp [hx] at h
        subst h
        simp [hx]
      · simp [hx] at h

theorem lastIdxOf_not_mem {c : Char} : ∀ {l : List Char}, c ∉ l → lastIdxOf c l = none := by
  intro l
  induction l with
  | nil => intro _; rfl
  | cons x xs ih =>
    intro h
    have hx : x ≠ c := fun e => h (e ▸ List.mem_cons_self x xs)
    have hxs : c ∉ xs := fun m => h (List.mem_cons_of_mem x m)
    unfold lastIdxOf
    rw [ih hxs]
    simp [hx]

theorem dropWhile_sep_eq_self {l : List Char} (h : ∀ x ∈ l, x ≠ '/') :
    l.dropWhile (fun c => c == '/') = l := by
  cases l with
  | nil => rfl
  | cons x xs =>
    have hx : (x == '/') = false := by
      have := h x (List.mem_cons_self x xs)
      simpa using this
    simp [List.dropWhile_cons, hx]

theorem takeWhile_sep_eq_self : ∀ {l : List Char}, (∀ x ∈ l, x ≠ '/') →
    l.takeWhile (fun c => !(c == '/')) = l := by
  intro l
  induction l with
  | nil => intro _; rfl
  | cons x xs ih =>
    intro h
    have hx : (x == '/') = false := by
      have := h x (List.mem_cons_self x xs)
      simpa using this
    have hxs : ∀ x ∈ xs, x ≠ '/' := fun y hy => h y (List.mem_cons_of_mem x hy)
    simp [List.takeWhile_cons, hx, ih hxs]

/-! ## Claims about the provider gateway (C3, C6, C9) -/

/-- C3: every backend-call failure (a thrown transport, authentication,
timeout, or malformed-response error — all of which carry a message; a
non-`Error` throw is replaced by `'Unknown error'`) is converted by both
provider query functions into a `ModelResponse` with empty `text` and a
populated non-empty `error`, never a propagated exception, and the
`model` field is always the literal provider identifier; the
malformed-response branches also produce such error responses. -/
theorem provider_error_normalization (isErr : Bool) (msg : String)
    (h : isErr = true → msg ≠ ("")) :
    (queryOllama (.threw isErr msg) =
        { text := (""), model := ("ollama"), error := some (jsCaughtMessage isErr msg) }
      ∧ queryTogether (.threw isErr msg) =
        { text := (""), model := ("together"), error := some (jsCaughtMessage isErr msg) }
      ∧ jsCaughtMessage isErr msg ≠ (""))
  ∧ (∀ r, (queryOllama r).model = ("ollama"))
  ∧ (∀ r, (queryTogether r).model = ("together"))
  ∧ (queryOllama (.ok none)).error = some ("Invalid response from Ollama")
  ∧ (queryOllama (.ok (some ⟨none⟩))).error = some ("Invalid response from Ollama")
  ∧ (queryOllama (.ok (some ⟨some ("")⟩))).error = some ("Invalid response from Ollama")
  ∧ (queryTogether (.ok (some ⟨none⟩))).error =
      some ("Cannot read properties of undefined (reading 'text')") := by
  refine ⟨⟨rfl, rfl, ?_⟩, ?_, ?_, rfl, rfl, by decide, rfl⟩
  · cases isErr with
    | true => simpa [jsCaughtMessage] using h rfl
    | false => simp [jsCaughtMessage]
  · intro r
    cases r with
    | threw a b => rfl
    | ok d =>
      cases d with
      | none => rfl
      | some dd' =>
        obtain ⟨resp⟩ := dd'
        cases resp with
        | none => rfl
        | some t => by_cases ht : t = ("") <;> simp [queryOllama, ht]
  · intro r
    cases r with
    | threw a b => rfl
    | ok d =>
      cases d with
      | none => rfl
      | some dd' =>
        obtain ⟨out⟩ := dd'
        cases out with
        | none => rfl
        | some o => rfl

/-- Witness for C3 at a concrete transport failure. -/
theorem provider_error_normalization_witness :
    queryOllama (.threw true ("network error")) =
      { text := (""), model := ("ollama"), error := some ("network error") } := by
  have H := provider_error_normalization true ("network error") (fun _ => by decide)
  simpa [jsCaughtMessage] using H.1.1

/-- C6 is false as stated: on success the code returns `{ text, model }`
with no `error` field at all — `error` is absent (`none`), not the empty
string — and `queryTogether` can succeed with an empty `text`. -/
theorem modelResponse_error_field_cex :
    queryOllama (.ok (some ⟨some ("A greeting.")⟩)) =
      { text := ("A greeting."), model := ("ollama"), error := none }
  ∧ (queryOllama (.ok (some ⟨some ("A greeting.")⟩))).error ≠ some ("")
  ∧ queryTogether (.ok (some ⟨some ⟨("")⟩⟩)) =
      { text := (""), model := ("together"), error := none } := by decide

/-- C6 amended: every gateway response carries `text` and `model` as
strings; on failure `error` is present and `text` is empty; on success
`error` is absent (undefined, not the empty string); a successful
Ollama response has non-empty `text`, while Together may succeed with
empty `text`. -/
theorem modelResponse_field_invariants :
    (∀ r, ((queryOllama r).error = none → (queryOllama r).text ≠ (""))
        ∧ ((queryOllama r).error.isSome → (queryOllama r).text = ("")))
  ∧ (∀ r, (queryTogether r).error.isSome → (queryTogether r).text = ("")) := by
  constructor
  · intro r
    cases r with
    | threw a b => exact ⟨fun hn => by simp [queryOllama] at hn, fun _ => rfl⟩
    | ok d =>
      cases d with
      | none => exact ⟨fun hn => by simp [queryOllama] at hn, fun _ => rfl⟩
      | some dd' =>
        obtain ⟨resp⟩ := dd'
        cases resp with
        | none => exact ⟨fun hn => by simp [queryOllama] at hn, fun _ => rfl⟩
        | some t =>
          by_cases ht : t = ("")
          · refine ⟨fun hn => ?_, fun _ => by simp [queryOllama, ht]⟩
            simp [queryOllama, ht] at hn
          · refine ⟨fun _ => by simp [queryOllama, ht], fun hs => ?_⟩
            simp [queryOllama, ht] at hs
  · intro r
    cases r with
    | threw a b => exact fun _ => rfl
    | ok d =>
      cases d with
      | none => exact fun _ => rfl
      | some dd' =>
        obtain ⟨out⟩ := dd'
        cases out with
        | none => exact fun _ => rfl
        | some o => intro hs; simp [queryTogether] at hs

/-- Witness for C6 amended at a concrete successful response. -/
theorem modelResponse_field_invariants_witness :
    (queryOllama (.ok (some ⟨some ("A")⟩))).text ≠ ("") :=
  (modelResponse_field_invariants.1 (.ok (some ⟨some ("A")⟩))).1 (by decide)

/-- C9: the two providers treat an empty successful answer asymmetrically:
`queryOllama` maps an empty `response` field to an error-shaped result
(the empty string is falsy in JS, so it fails the `!response.data.response`
check), while `queryTogether` returns a success-shaped result with empty
`text` and no `error`. -/
theorem empty_text_asymmetry :
    queryOllama (.ok (some ⟨some ("")⟩)) =
      { text := (""), model := ("ollama"), error := some ("Invalid response from Ollama") }
  ∧ queryTogether (.ok (some ⟨some ⟨("")⟩⟩)) =
      { text := (""), model := ("together"), error := none } := by decide

theorem data_mk (l : List Char) : (String.mk l).data = l := rfl

/-! ## Claims about truncation (C4, C5, C8) -/

/-- C8: `truncateContext` returns any context whose length is at most
`maxLength` unchanged — no marker is appended — so truncation of an
already-short string is the identity (and hence idempotent). -/
theorem truncateContext_short_id (s : String) (maxLength : Nat)
    (h : s.data.length ≤ maxLength) : truncateContext s maxLength = s := by
  unfold truncateContext
  rw [if_pos h]

/-- Witness for C8 at the default limit 4000. -/
theorem truncateContext_short_id_witness :
    ("hello").data.length ≤ 4000 ∧ truncateContext ("hello") 4000 = ("hello") :=
  ⟨by decide, truncateContext_short_id ("hello") 4000 (by decide)⟩

/-- C4 is false as stated: in the hard-limit branch the code appends
`'... (truncated)'` without the leading newline, so an over-limit input
with no usable newline does not end with the marker `"\n... (truncated)"`
that the newline-cut branch appends. -/
theorem truncateContext_marker_cex :
    truncateContext ("aaaaaaaaaaa") 10 = ("aaaaaaaaaa... (truncated)")
  ∧ isSuf (("\n... (truncated)").data) ((truncateContext ("aaaaaaaaaaa") 10).data) = false := by
  decide

/-- C4 amended: the newline-cut branch appends `"\n... (truncated)"` while
the hard-limit branch appends `"... (truncated)"` without the leading
newline; every over-limit output therefore ends with the common marker
`"... (truncated)"`, but only the newline-cut branch's output ends with
the newline-prefixed marker. -/
theorem truncateContext_marker_suffix (s : String) (maxLength : Nat)
    (h : maxLength < s.data.length) :
    isSuf (("... (truncated)").data) ((truncateContext s maxLength).data) = true := by
  have hns : ¬ s.data.length ≤ maxLength := by omega
  unfold truncateContext
  rw [if_neg hns]
  cases h' : lastIdxOf '\n' (s.data.take maxLength) with
  | none =>
    simp only [truncAfter, data_mk]
    exact isSuf_append_self _ _
  | some i =>
    simp only [truncAfter, data_mk]
    by_cases hc : 4 * maxLength < 5 * i
    · rw [if_pos hc]
      have : (s.data.take maxLength).take i ++ (("\n... (truncated)").data)
           = ((s.data.take maxLength).take i ++ ['\n']) ++ (("... (truncated)").data) := by
        simp
      rw [this]
      exact isSuf_append_self _ _
    · rw [if_neg hc]
      exact isSuf_append_self _ _

/-- Witness for C4 amended. -/
theorem truncateContext_marker_suffix_witness :
    10 < ("xxxxxxxxxxx").data.length
  ∧ isSuf (("... (truncated)").data) ((truncateContext ("xxxxxxxxxxx") 10).data) = true :=
  ⟨by decide, truncateContext_marker_suffix ("xxxxxxxxxxx") 10 (by decide)⟩

/-- C5: for a context strictly longer than `maxLength`, the output length
is at most `maxLength` plus the marker length (16, counting the newline),
and the cut point is either exactly `maxLength` or the index of a newline
at or beyond 80 percent of `maxLength` — never below that threshold. -/
theorem truncateContext_bounds (s : String) (maxLength : Nat)
    (h : maxLength < s.data.length) :
    (truncateContext s maxLength).data.length ≤ maxLength + 16
  ∧ ∃ cut, cut ≤ maxLength
      ∧ ((truncateContext s maxLength).data = s.data.take cut ++ (("\n... (truncated)").data)
         ∨ (truncateContext s maxLength).data = s.data.take cut ++ (("... (truncated)").data))
      ∧ (cut = maxLength ∨ (s.data[cut]? = some '\n' ∧ 4 * maxLength ≤ 5 * cut)) := by
  have hns : ¬ s.data.length ≤ maxLength := by omega
  have htk : (s.data.take maxLength).length = maxLength := by
    rw [List.length_take]
    omega
  have hm15 : (("... (truncated)").data).length = 15 := by decide
  unfold truncateContext
  rw [if_neg hns]
  cases h' : lastIdxOf '\n' (s.data.take maxLength) with
  | none =>
    simp only [truncAfter, data_mk]
    refine ⟨?_, maxLength, le_refl _, Or.inr rfl, Or.inl rfl⟩
    rw [List.length_append, htk, hm15]
    omega
  | some i =>
    obtain ⟨hilt, higet⟩ := lastIdxOf_spec h'
    rw [htk] at hilt
    have hgets : s.data[i]? = some '\n' := by
      rw [List.getElem?_take] at higet
      rw [if_pos hilt] at higet
      exact higet
    simp only [truncAfter, data_mk]
    by_cases hc : 4 * maxLength < 5 * i
    · rw [if_pos hc]
      refine ⟨?_, i, Nat.le_of_lt hilt, ?_, Or.inr ⟨hgets, Nat.le_of_lt hc⟩⟩
      · rw [List.length_append, List.length_take, htk]
        simp only [List.length_cons, List.length_nil]
        omega
      · left
        rw [List.take_take]
        have : i ⊓ maxLength = i := by omega
        rw [this]
    · rw [if_neg hc]
      refine ⟨?_, maxLength, le_refl _, Or.inr rfl, Or.inl rfl⟩
      rw [List.length_append, htk, hm15]
      omega

/-- Witness for C5: a 12-character context with a newline in the 80-100
percent window of a limit of 10. -/
theorem truncateContext_bounds_witness :
    10 < ("aaaaaaaaa\nzz").data.length
  ∧ ((truncateContext ("aaaaaaaaa\nzz") 10).data.length ≤ 10 + 16
     ∧ ∃ cut, cut ≤ 10
        ∧ ((truncateContext ("aaaaaaaaa\nzz") 10).data
              = ("aaaaaaaaa\nzz").data.take cut ++ (("\n... (truncated)").data)
           ∨ (truncateContext ("aaaaaaaaa\nzz") 10).data
              = ("aaaaaaaaa\nzz").data.take cut ++ (("... (truncated)").data))
        ∧ (cut = 10 ∨ (("aaaaaaaaa\nzz").data[cut]? = some '\n' ∧ 4 * 10 ≤ 5 * cut))) :=
  ⟨by decide, truncateContext_bounds ("aaaaaaaaa\nzz") 10 (by decide)⟩

/-! ## Claim about text-file detection (C10) -/

/-- C10: for any file name that is a single leading dot followed by
dot-free (and separator-free) characters — e.g. the bare name `.env` —
`path.extname` yields the empty string, so `isTextFile` returns `false`
even though `'.env'` occurs in the recognized extension list. -/
theorem isTextFile_dotfile_false (rest : List Char)
    (h1 : '.' ∉ rest) (h2 : '/' ∉ rest) :
    isTextFile (String.mk ('.' :: rest)) = false := by
  have hall : ∀ x ∈ ('.' :: rest).reverse, x ≠ '/' := by
    intro x hx
    rw [List.mem_reverse] at hx
    rcases List.mem_cons.mp hx with hx | hx
    · subst hx; decide
    · exact fun e => h2 (e ▸ hx)
  have hb : basenameChars (String.mk ('.' :: rest)).data = '.' :: rest := by
    show ((((('.' :: rest).reverse).dropWhile (fun c => c == '/')).takeWhile
      (fun c => !(c == '/'))).reverse) = '.' :: rest
    rw [dropWhile_sep_eq_self hall, takeWhile_sep_eq_self hall, List.reverse_reverse]
  have hne : ('.' :: rest) ≠ ['.', '.'] := by
    intro e
    have : rest = ['.'] := by injection e
    exact h1 (this ▸ List.mem_singleton.mpr rfl)
  have hlast : lastIdxOf '.' ('.' :: rest) = some 0 := by
    unfold lastIdxOf
    rw [lastIdxOf_not_mem h1]
    simp
  have he : extname (String.mk ('.' :: rest)) = ("") := by
    unfold extname
    rw [hb, if_neg hne, hlast]
  show textExtensions.contains (jsToLowerCase (extname (String.mk ('.' :: rest)))) = false
  rw [he]
  decide

/-- Witness for C10: the literal name `.env` is rejected although the
extension `'.env'` is in the recognized list. -/
theorem isTextFile_dotfile_false_witness :
    isTextFile ((".env")) = false ∧ textExtensions.contains ((".env")) = true := by
  constructor
  · exact isTextFile_dotfile_false (['e', 'n', 'v']) (by decide) (by decide)
  · decide

/-! ## Claims about content aggregation (C2, C7) -/

/-- C2 is false as stated: for a directory, `readDirectory` builds each
child record from the `readdir` entry alone and attaches no `content`,
even for a readable child file — here `/d/a.txt` holds `"hello"` and is
readable, yet its record carries `content := none`. -/
theorem getContextFromPath_dir_content_cex :
    getContextFromPath
      ([(("/d"), FsNode.dir [(("a.txt"), FileType.file)] true),
        (("/d/a.txt"), FsNode.file ("hello") true)]) ("/d")
      = .ok [{ name := ("a.txt"), path := ("/d/a.txt"), type := FileType.file, content := none }]
  ∧ fsReadFile
      ([(("/d"), FsNode.dir [(("a.txt"), FileType.file)] true),
        (("/d/a.txt"), FsNode.file ("hello") true)]) ("/d/a.txt") = .ok ("hello") := by
  decide

/-- C2 amended: on an existing single-file path the aggregation returns
exactly a one-element list with `content` populated with the file's full
text; on a directory it returns one record per immediate child
(non-recursive) with `content` unset for every child — subdirectories
and files alike. -/
theorem getContextFromPath_shape (fs : FS) (p : String) :
    (∀ c, fsStat fs p = .ok .file → fsReadFile fs p = .ok c →
       getContextFromPath fs p =
         .ok [{ name := basename p, path := p, type := FileType.file, content := some c }])
  ∧ (∀ es, fsStat fs p = .ok .directory → fsReaddir fs p = .ok es →
       getContextFromPath fs p =
         .ok (es.map (fun e =>
           { name := e.fst, path := pathJoin p e.fst, type := e.snd, content := none }))) := by
  constructor
  · intro c hstat hread
    unfold getContextFromPath
    rw [hstat]
    unfold readFile
    rw [hread]
  · intro es hstat hdir
    unfold getContextFromPath
    rw [hstat]
    unfold readDirectory
    rw [hdir]

/-- Witness for C2 amended at a concrete single markdown file. -/
theorem getContextFromPath_shape_witness :
    getContextFromPath ([(("/n.md"), FsNode.file ("hello world") true)]) ("/n.md")
      = .ok [{ name := ("n.md"), path := ("/n.md"), type := FileType.file,
               content := some ("hello world") }] := by
  have H := (getContextFromPath_shape
      ([(("/n.md"), FsNode.file ("hello world") true)]) ("/n.md")).1
      ("hello world") (by decide) (by decide)
  have hb : basename ("/n.md") = ("n.md") := by decide
  rw [hb] at H
  exact H

/-- C7 is false as stated: an unreadable file makes `fsReadFile` reject
with an `EACCES`-tagged error, but `readFile`'s catch block rethrows a
plain `new Error` whose message merely prefixes the reason — the
returned failure carries no error-class tag (`code := none`), so it is
not a distinguishable `PermissionError`; only the message string
remains. -/
theorem aggregate_error_kinds_cex :
    fsReadFile ([(("/secret.txt"), FsNode.file ("s") false)]) ("/secret.txt")
      = .error { code := some ("EACCES"),
                 message := ("EACCES: permission denied, open '/secret.txt'") }
  ∧ getContextFromPath ([(("/secret.txt"), FsNode.file ("s") false)]) ("/secret.txt")
      = .error { code := none,
                 message := ("Failed to read file: EACCES: permission denied, open '/secret.txt'") } := by
  decide

/-- C7 amended: a failing `stat` (e.g. nonexistent path) propagates its
error unchanged, errno tag included; a failing read of a file or
directory is wrapped into a generic error with the class tag dropped
and the underlying reason kept only inside the message, behind the
prefix `Failed to read file: ` or `Failed to read directory: ` — so
failure kinds are distinguishable by message content, not by error
class. -/
theorem aggregate_error_propagation (fs : FS) (p : String) :
    (∀ e, fsStat fs p = .error e → getContextFromPath fs p = .error e)
  ∧ (∀ e, fsStat fs p = .ok .file → fsReadFile fs p = .error e →
      getContextFromPath fs p =
        .error { code := none, message := ("Failed to read file: ") ++ e.message })
  ∧ (∀ e, fsStat fs p = .ok .directory → fsReaddir fs p = .error e →
      getContextFromPath fs p =
        .error { code := none, message := ("Failed to read directory: ") ++ e.message }) := by
  refine ⟨?_, ?_, ?_⟩
  · intro e hstat
    unfold getContextFromPath
    rw [hstat]
  · intro e hstat hread
    unfold getContextFromPath
    rw [hstat]
    unfold readFile
    rw [hread]
  · intro e hstat hdir
    unfold getContextFromPath
    rw [hstat]
    unfold readDirectory
    rw [hdir]

/-- Witness for C7 amended: a nonexistent path surfaces the raw
`ENOENT` stat rejection unchanged. -/
theorem aggregate_error_propagation_witness :
    getContextFromPath ([]) ("/missing")
      = .error { code := some ("ENOENT"),
                 message := ("ENOENT: no such file or directory, stat '/missing'") } := by
  have H := (aggregate_error_propagation ([]) ("/missing")).1
      ({ code := some ("ENOENT"),
         message := ("ENOENT: no such file or directory, stat '/missing'") }) (by decide)
  exact H

/-! ## Split/join lemmas for the path embedding (towards C1) -/

theorem consHead_ne_nil (c : Char) (l : List (List Char)) : consHead c l ≠ [] := by
  cases l <;> simp [consHead]

theorem sepSplit_ne_nil : ∀ cs : List Char, sepSplit cs ≠ [] := by
  intro cs
  cases cs with
  | nil => simp [sepSplit]
  | cons c cs =>
    by_cases hc : c = '/'
    · simp [sepSplit, hc]
    · simp only [sepSplit, if_neg hc]
      exact consHead_ne_nil _ _

theorem sepSplit_cons_exists (cs : List Char) : ∃ s ss, sepSplit cs = s :: ss := by
  cases h : sepSplit cs with
  | nil => exact absurd h (sepSplit_ne_nil cs)
  | cons s ss => exact ⟨s, ss, rfl⟩

theorem joinSegs_cons_cons (s t : List Char) (ts : List (List Char)) :
    joinSegs (s :: t :: ts) = s ++ '/' :: joinSegs (t :: ts) := by
  rfl

theorem joinSegs_sepSplit : ∀ cs : List Char, joinSegs (sepSplit cs) = cs := by
  intro cs
  induction cs with
  | nil => rfl
  | cons c cs ih =>
    obtain ⟨s, ss, hss⟩ := sepSplit_cons_exists cs
    rw [hss] at ih
    by_cases hc : c = '/'
    · subst hc
      have h1 : sepSplit ('/' :: cs) = [] :: sepSplit cs := by simp [sepSplit]
      rw [h1, hss, joinSegs_cons_cons, ih]
      rfl
    · have h1 : sepSplit (c :: cs) = consHead c (sepSplit cs) := by
        simp only [sepSplit, if_neg hc]
      rw [h1, hss]
      show joinSegs ((c :: s) :: ss) = c :: cs
      cases ss with
      | nil =>
        have hs : s = cs := ih
        show c :: s = c :: cs
        rw [hs]
      | cons t ts =>
        rw [joinSegs_cons_cons] at ih ⊢
        rw [List.cons_append, ih]

theorem mem_sepSplit_no_sep : ∀ (cs : List Char) (s : List Char), s ∈ sepSplit cs → '/' ∉ s := by
  intro cs
  induction cs with
  | nil =>
    intro s hs
    simp [sepSplit] at hs
    simp [hs]
  | cons c cs ih =>
    intro s hs
    by_cases hc : c = '/'
    · rw [show sepSplit (c :: cs) = [] :: sepSplit cs by simp [sepSplit, hc]] at hs
      rcases List.mem_cons.mp hs with h | h
      · simp [h]
      · exact ih s h
    · rw [show sepSplit (c :: cs) = consHead c (sepSplit cs) by simp [sepSplit, hc]] at hs
      obtain ⟨t, ts, hts⟩ := sepSplit_cons_exists cs
      rw [hts] at hs
      simp only [consHead] at hs
      rcases List.mem_cons.mp hs with h | h
      · subst h
        intro hmem
        rcases List.mem_cons.mp hmem with h' | h'
        · exact hc h'.symm
        · exact ih t (hts ▸ List.mem_cons_self t ts) h'
      · exact ih s (hts ▸ List.mem_cons_of_mem t h)

theorem mem_of_mem_sepSplit :
    ∀ (cs : List Char) (s : List Char) (x : Char), s ∈ sepSplit cs → x ∈ s → x ∈ cs := by
  intro cs
  induction cs with
  | nil =>
    intro s x hs hx
    simp [sepSplit] at hs
    subst hs
    simp at hx
  | cons c cs ih =>
    intro s x hs hx
    by_cases hc : c = '/'
    · rw [show sepSplit (c :: cs) = [] :: sepSplit cs by simp [sepSplit, hc]] at hs
      rcases List.mem_cons.mp hs with h | h
      · subst h; simp at hx
      · exact List.mem_cons_of_mem c (ih s x h hx)
    · rw [show sepSplit (c :: cs) = consHead c (sepSplit cs) by simp [sepSplit, hc]] at hs
      obtain ⟨t, ts, hts⟩ := sepSplit_cons_exists cs
      rw [hts] at hs
      simp only [consHead] at hs
      rcases List.mem_cons.mp hs with h | h
      · subst h
        rcases List.mem_cons.mp hx with h' | h'
        · exact h' ▸ List.mem_cons_self c cs
        · exact List.mem_cons_of_mem c (ih t x (hts ▸ List.mem_cons_self t ts) h')
      · exact List.mem_cons_of_mem c (ih s x (hts ▸ List.mem_cons_of_mem t h) hx)

theorem sepSplit_no_sep_single : ∀ cs : List Char, '/' ∉ cs → sepSplit cs = [cs] := by
  intro cs
  induction cs with
  | nil => intro _; rfl
  | cons c cs ih =>
    intro h
    have hc : c ≠ '/' := fun e => h (e ▸ List.mem_cons_self c cs)
    have hcs : '/' ∉ cs := fun m => h (List.mem_cons_of_mem c m)
    rw [show sepSplit (c :: cs) = consHead c (sepSplit cs) by
      simp only [sepSplit, if_neg hc]]
    rw [ih hcs]
    rfl

theorem consHead_append (c : Char) (l l2 : List (List Char)) (h : l ≠ []) :
    consHead c (l ++ l2) = consHead c l ++ l2 := by
  cases l with
  | nil => exact absurd rfl h
  | cons s ss => rfl

theorem sepSplit_append_sep : ∀ a b : List Char, sepSplit (a ++ '/' :: b) = sepSplit a ++ sepSplit b := by
  intro a b
  induction a with
  | nil =>
    show sepSplit ('/' :: b) = sepSplit [] ++ sepSplit b
    simp [sepSplit]
  | cons c a ih =>
    by_cases hc : c = '/'
    · show sepSplit (c :: (a ++ '/' :: b)) = sepSplit (c :: a) ++ sepSplit b
      rw [show sepSplit (c :: (a ++ '/' :: b)) = [] :: sepSplit (a ++ '/' :: b) by
        simp [sepSplit, hc]]
      rw [show sepSplit (c :: a) = [] :: sepSplit a by simp [sepSplit, hc]]
      rw [ih]
      rfl
    · show sepSplit (c :: (a ++ '/' :: b)) = sepSplit (c :: a) ++ sepSplit b
      rw [show sepSplit (c :: (a ++ '/' :: b)) = consHead c (sepSplit (a ++ '/' :: b)) by
        simp [sepSplit, hc]]
      rw [show sepSplit (c :: a) = consHead c (sepSplit a) by simp [sepSplit, hc]]
      rw [ih, consHead_append c _ _ (sepSplit_ne_nil a)]

theorem sepSplit_joinSegs :
    ∀ l : List (List Char), l ≠ [] → (∀ s ∈ l, '/' ∉ s) → sepSplit (joinSegs l) = l := by
  intro l
  induction l with
  | nil => intro h _; exact absurd rfl h
  | cons s ss ih =>
    intro _ hsep
    cases ss with
    | nil =>
      show sepSplit (joinSegs [s]) = [s]
      exact sepSplit_no_sep_single s (hsep s (List.mem_cons_self s []))
    | cons t ts =>
      rw [joinSegs_cons_cons, sepSplit_append_sep]
      rw [sepSplit_no_sep_single s (hsep s (List.mem_cons_self s (t :: ts)))]
      rw [ih (by simp) (fun u hu => hsep u (List.mem_cons_of_mem s hu))]
      rfl

theorem joinSegs_append :
    ∀ a b : List (List Char), a ≠ [] → b ≠ [] →
      joinSegs (a ++ b) = joinSegs a ++ '/' :: joinSegs b := by
  intro a
  induction a with
  | nil => intro b h _; exact absurd rfl h
  | cons s ss ih =>
    intro b _ hb
    cases ss with
    | nil =>
      cases b with
      | nil => exact absurd rfl hb
      | cons t ts =>
        show joinSegs (s :: t :: ts) = joinSegs [s] ++ '/' :: joinSegs (t :: ts)
        rw [joinSegs_cons_cons]
        rfl
    | cons t ts =>
      show joinSegs (s :: ((t :: ts) ++ b)) = joinSegs (s :: t :: ts) ++ '/' :: joinSegs b
      have h1 : (t :: ts) ++ b = t :: (ts ++ b) := rfl
      rw [show joinSegs (s :: ((t :: ts) ++ b)) = s ++ '/' :: joinSegs ((t :: ts) ++ b) from rfl]
      rw [ih b (by simp) hb, joinSegs_cons_cons]
      simp

theorem joinSegs_head (s : List Char) (ss : List (List Char)) (h : s ≠ []) :
    (joinSegs (s :: ss)).head? = s.head? := by
  cases s with
  | nil => exact absurd rfl h
  | cons c s' =>
    cases ss with
    | nil => rfl
    | cons t ts => rw [joinSegs_cons_cons]; rfl

theorem joinSegs_ne_nil (s : List Char) (ss : List (List Char)) (h : s ≠ []) :
    joinSegs (s :: ss) ≠ [] := by
  intro he
  have := joinSegs_head s ss h
  rw [he] at this
  cases s with
  | nil => exact absurd rfl h
  | cons c s' => simp at this

/-! ## normStep / normSegs lemmas -/

theorem normStep_skip (aar : Bool) (st : List (List Char)) {s : List Char}
    (h : s = [] ∨ s = ['.']) : normStep aar st s = st := by
  simp only [normStep, if_pos h]

theorem normStep_push (aar : Bool) (st : List (List Char)) {s : List Char}
    (h1 : ¬(s = [] ∨ s = ['.'])) (h2 : s ≠ dd) : normStep aar st s = s :: st := by
  simp only [normStep, if_neg h1, if_neg h2]

theorem normStep_dd_pop (aar : Bool) (f : List Char) (rest : List (List Char))
    (hf : f ≠ dd) : normStep aar (f :: rest) dd = rest := by
  show (if (dd : List Char) = [] ∨ (dd : List Char) = ['.'] then f :: rest
        else if (dd : List Char) = dd then
          (if f = dd then (if aar then dd :: (f :: rest) else f :: rest) else rest)
        else dd :: f :: rest) = rest
  rw [if_neg (by decide : ¬((dd : List Char) = [] ∨ (dd : List Char) = ['.']))]
  rw [if_pos rfl, if_neg hf]

theorem normStep_dd_nil_true : normStep true [] dd = [dd] := by rfl

theorem normStep_dd_dd_true (rest : List (List Char)) :
    normStep true (dd :: rest) dd = dd :: dd :: rest := by
  show (if (dd : List Char) = [] ∨ (dd : List Char) = ['.'] then dd :: rest
        else if (dd : List Char) = dd then
          (if (dd : List Char) = dd then
            (if true then dd :: (dd :: rest) else dd :: rest) else rest)
        else dd :: dd :: rest) = dd :: dd :: rest
  rw [if_neg (by decide : ¬((dd : List Char) = [] ∨ (dd : List Char) = ['.']))]
  rw [if_pos rfl, if_pos rfl, if_pos rfl]

theorem foldl_true_inv :
    ∀ (segs fr : List (List Char)) (k : Nat),
      (∀ s ∈ segs, '/' ∉ s ∧ '\\' ∉ s) →
      (∀ s ∈ fr, s ≠ [] ∧ s ≠ dd ∧ '/' ∉ s ∧ '\\' ∉ s) →
      ∃ fr' k', List.foldl (normStep true) (fr ++ List.replicate k dd) segs
                  = fr' ++ List.replicate k' dd
        ∧ ∀ s ∈ fr', s ≠ [] ∧ s ≠ dd ∧ '/' ∉ s ∧ '\\' ∉ s := by
  intro segs
  induction segs with
  | nil => intro fr k _ hfr; exact ⟨fr, k, rfl, hfr⟩
  | cons s segs ih =>
    intro fr k hsegs hfr
    have hs := hsegs s (List.mem_cons_self s segs)
    have hsegs' : ∀ u ∈ segs, '/' ∉ u ∧ '\\' ∉ u :=
      fun u hu => hsegs u (List.mem_cons_of_mem s hu)
    rw [List.foldl_cons]
    by_cases h1 : s = [] ∨ s = ['.']
    · rw [normStep_skip true _ h1]
      exact ih fr k hsegs' hfr
    · by_cases h2 : s = dd
      · subst h2
        cases fr with
        | cons f fr' =>
          have hf := hfr f (List.mem_cons_self f fr')
          rw [List.cons_append, normStep_dd_pop true f _ hf.2.1]
          exact ih fr' k hsegs' (fun u hu => hfr u (List.mem_cons_of_mem f hu))
        | nil =>
          cases k with
          | zero =>
            rw [show (([] : List (List Char)) ++ List.replicate 0 dd) = [] by rfl]
            rw [normStep_dd_nil_true]
            have := ih [] 1 hsegs' (by intro u hu; simp at hu)
            rw [show (([] : List (List Char)) ++ List.replicate 1 dd) = [dd] by rfl] at this
            exact this
          | succ k' =>
            rw [List.nil_append, List.replicate_succ, normStep_dd_dd_true]
            have := ih [] (k' + 2) hsegs' (by intro u hu; simp at hu)
            rw [List.nil_append] at this
            rw [show List.replicate (k' + 2) dd = dd :: dd :: List.replicate k' dd by
              rw [List.replicate_succ, List.replicate_succ]] at this
            exact this
      · rw [normStep_push true _ h1 h2]
        have hne : s ≠ [] := fun e => h1 (Or.inl e)
        have := ih (s :: fr) k hsegs' (by
          intro u hu
          rcases List.mem_cons.mp hu with h | h
          · subst h; exact ⟨hne, h2, hs.1, hs.2⟩
          · exact hfr u h)
        rw [List.cons_append] at this
        exact this

theorem foldl_false_push :
    ∀ (bs st : List (List Char)),
      (∀ b ∈ bs, b ≠ [] ∧ b ≠ ['.'] ∧ b ≠ dd) →
      List.foldl (normStep false) st bs = bs.reverse ++ st := by
  intro bs
  induction bs with
  | nil => intro st _; simp
  | cons b bs ih =>
    intro st h
    have hb := h b (List.mem_cons_self b bs)
    have h1 : ¬(b = [] ∨ b = ['.']) := fun h' => h'.elim hb.1 hb.2.1
    rw [List.foldl_cons, normStep_push false st h1 hb.2.2]
    rw [ih (b :: st) (fun u hu => h u (List.mem_cons_of_mem b hu))]
    simp

theorem foldl_false_ext :
    ∀ (rs st : List (List Char)),
      (∀ u ∈ rs, u ≠ dd) →
      ∃ ex, List.foldl (normStep false) st rs = ex ++ st := by
  intro rs
  induction rs with
  | nil => intro st _; exact ⟨[], rfl⟩
  | cons r rs ih =>
    intro st h
    have hr := h r (List.mem_cons_self r rs)
    have h' : ∀ u ∈ rs, u ≠ dd := fun u hu => h u (List.mem_cons_of_mem r hu)
    rw [List.foldl_cons]
    by_cases h1 : r = [] ∨ r = ['.']
    · rw [normStep_skip false st h1]
      exact ih st h'
    · rw [normStep_push false st h1 hr]
      obtain ⟨ex, hex⟩ := ih (r :: st) h'
      refine ⟨ex ++ [r], ?_⟩
      rw [hex]
      simp

/-! ## Characterization of normalize on relative inputs -/

theorem normalize_rel (cs : List Char) (hh : cs.head? ≠ some '/') (hb : '\\' ∉ cs) :
    ∃ k core te,
      sepSplit (normalizeList cs) = List.replicate k dd ++ core ++ te
      ∧ (∀ s ∈ core, s ≠ [] ∧ s ≠ dd ∧ '/' ∉ s ∧ '\\' ∉ s)
      ∧ (te = [] ∨ te = [[]]) := by
  by_cases hemp : cs = []
  · subst hemp
    refine ⟨0, [['.']], [], by decide, ?_, Or.inl rfl⟩
    intro s hs
    simp at hs
    subst hs
    refine ⟨by decide, by decide, by decide, by decide⟩
  · have habs : (cs.head? == some '/') = false := by
      rw [beq_eq_false_iff_ne]
      exact hh
    have hsegs : ∀ s ∈ sepSplit cs, '/' ∉ s ∧ '\\' ∉ s := by
      intro s hs
      exact ⟨mem_sepSplit_no_sep cs s hs,
             fun hx => hb (mem_of_mem_sepSplit cs s '\\' hs hx)⟩
    obtain ⟨fr', k', hfold, hfr'⟩ := foldl_true_inv (sepSplit cs) [] 0 hsegs (by simp)
    rw [show (([] : List (List Char)) ++ List.replicate 0 dd) = [] by rfl] at hfold
    have hns : normSegs true (sepSplit cs) = List.replicate k' dd ++ fr'.reverse := by
      unfold normSegs
      rw [hfold, List.reverse_append, List.reverse_replicate]
    have hcore0 : ∀ s ∈ fr'.reverse, s ≠ [] ∧ s ≠ dd ∧ '/' ∉ s ∧ '\\' ∉ s := by
      intro s hs
      exact hfr' s (List.mem_reverse.mp hs)
    have hnl : normalizeList cs
        = normAssemble false (cs.getLast? == some '/')
            (joinSegs (List.replicate k' dd ++ fr'.reverse)) := by
      unfold normalizeList
      rw [if_neg hemp, habs, Bool.not_false, hns]
    rw [hnl]
    by_cases hbody : List.replicate k' dd ++ fr'.reverse = []
    · rw [hbody]
      cases htr : (cs.getLast? == some '/') with
      | true =>
        refine ⟨0, [['.']], [[]], by decide, ?_, Or.inr rfl⟩
        intro s hs
        simp at hs
        subst hs
        refine ⟨by decide, by decide, by decide, by decide⟩
      | false =>
        refine ⟨0, [['.']], [], by decide, ?_, Or.inl rfl⟩
        intro s hs
        simp at hs
        subst hs
        refine ⟨by decide, by decide, by decide, by decide⟩
    · have hsep : ∀ s ∈ List.replicate k' dd ++ fr'.reverse, '/' ∉ s := by
        intro s hs
        rcases List.mem_append.mp hs with h | h
        · rw [List.eq_of_mem_replicate h]; decide
        · exact (hcore0 s h).2.2.1
      have hrt : sepSplit (joinSegs (List.replicate k' dd ++ fr'.reverse))
          = List.replicate k' dd ++ fr'.reverse := sepSplit_joinSegs _ hbody hsep
      have hjne : joinSegs (List.replicate k' dd ++ fr'.reverse) ≠ [] := by
        cases hL : List.replicate k' dd ++ fr'.reverse with
        | nil => exact absurd hL hbody
        | cons s0 rest =>
          have hs0 : s0 ≠ [] := by
            have hmem : s0 ∈ List.replicate k' dd ++ fr'.reverse :=
              hL ▸ List.mem_cons_self s0 rest
            rcases List.mem_append.mp hmem with h | h
            · rw [List.eq_of_mem_replicate h]; decide
            · exact (hcore0 s0 h).1
          exact joinSegs_ne_nil s0 rest hs0
      unfold normAssemble
      rw [if_neg hjne, if_neg (Bool.false_ne_true)]
      cases htr : (cs.getLast? == some '/') with
      | false =>
        refine ⟨k', fr'.reverse, [], ?_, hcore0, Or.inl rfl⟩
        rw [if_neg (Bool.false_ne_true), List.append_nil, hrt]
      | true =>
        refine ⟨k', fr'.reverse, [[]], ?_, hcore0, Or.inr rfl⟩
        rw [if_pos rfl]
        rw [show joinSegs (List.replicate k' dd ++ fr'.reverse) ++ ['/']
              = joinSegs (List.replicate k' dd ++ fr'.reverse) ++ '/' :: [] from rfl]
        rw [sepSplit_append_sep, hrt]
        rfl

/-! ## stripTraversal lemmas -/

theorem stripTraversal_no_match (x : List Char)
    (h1 : ∀ r, x ≠ '.' :: '.' :: '/' :: r)
    (h2 : ∀ r, x ≠ '.' :: '.' :: '\\' :: r)
    (h3 : x ≠ ['.', '.']) :
    stripTraversal x = x := by
  match x with
  | [] => rfl
  | [c] => rfl
  | [c1, c2] =>
    show (if c1 = '.' ∧ c2 = '.' then [] else [c1, c2]) = [c1, c2]
    rw [if_neg]
    rintro ⟨e1, e2⟩
    exact h3 (by rw [e1, e2])
  | c1 :: c2 :: c3 :: r =>
    show (if c1 = '.' ∧ c2 = '.' ∧ (c3 = '/' ∨ c3 = '\\') then stripTraversal r
          else c1 :: c2 :: c3 :: r) = c1 :: c2 :: c3 :: r
    rw [if_neg]
    rintro ⟨e1, e2, e3 | e3⟩
    · exact h1 r (by rw [e1, e2, e3])
    · exact h2 r (by rw [e1, e2, e3])

theorem strip_dd_cons (l : List (List Char)) :
    stripTraversal (joinSegs (dd :: l)) = stripTraversal (joinSegs l) := by
  cases l with
  | nil => decide
  | cons t ts =>
    rw [joinSegs_cons_cons]
    show (if '.' = '.' ∧ '.' = '.' ∧ ('/' = '/' ∨ '/' = '\\') then stripTraversal (joinSegs (t :: ts))
          else '.' :: '.' :: '/' :: joinSegs (t :: ts)) = stripTraversal (joinSegs (t :: ts))
    rw [if_pos (by decide)]

theorem strip_dd_block : ∀ (k : Nat) (l : List (List Char)),
    stripTraversal (joinSegs (List.replicate k dd ++ l)) = stripTraversal (joinSegs l) := by
  intro k
  induction k with
  | zero => intro l; rfl
  | succ k ih =>
    intro l
    rw [List.replicate_succ, List.cons_append, strip_dd_cons, ih]

theorem strip_core_noop (core te : List (List Char))
    (hcore : ∀ s ∈ core, s ≠ [] ∧ s ≠ dd ∧ '/' ∉ s ∧ '\\' ∉ s)
    (hte : te = [] ∨ te = [[]]) :
    stripTraversal (joinSegs (core ++ te)) = joinSegs (core ++ te) := by
  cases core with
  | nil => rcases hte with h | h <;> subst h <;> rfl
  | cons s0 rest =>
    obtain ⟨hs0ne, hs0dd, hs0sep, hs0bs⟩ := hcore s0 (List.mem_cons_self s0 rest)
    have hx : ∃ tail, joinSegs ((s0 :: rest) ++ te) = s0 ++ tail
        ∧ (tail = [] ∨ ∃ y, tail = '/' :: y) := by
      rw [List.cons_append]
      cases hrt : rest ++ te with
      | nil => exact ⟨[], by simp [joinSegs], Or.inl rfl⟩
      | cons t ts => exact ⟨'/' :: joinSegs (t :: ts), joinSegs_cons_cons _ _ _, Or.inr ⟨_, rfl⟩⟩
    obtain ⟨tail, hxe, htail⟩ := hx
    apply stripTraversal_no_match
    · intro r he
      rw [hxe] at he
      cases s0 with
      | nil => exact hs0ne rfl
      | cons a s1 =>
        rw [List.cons_append] at he
        injection he with ha he1
        cases s1 with
        | nil =>
          rcases htail with ht | ⟨y, ht⟩ <;> subst ht
          · exact List.noConfusion he1
          · injection he1 with h' _
            exact absurd h' (by decide)
        | cons b s2 =>
          rw [List.cons_append] at he1
          injection he1 with hb he2
          cases s2 with
          | nil =>
            rcases htail with ht | ⟨y, ht⟩ <;> subst ht
            · exact List.noConfusion he2
            · injection he2 with h' _
              subst ha
              subst hb
              exact hs0dd rfl
          | cons c3 s3 =>
            rw [List.cons_append] at he2
            injection he2 with hc3 _
            apply hs0sep
            rw [← hc3]
            simp
    · intro r he
      rw [hxe] at he
      cases s0 with
      | nil => exact hs0ne rfl
      | cons a s1 =>
        rw [List.cons_append] at he
        injection he with ha he1
        cases s1 with
        | nil =>
          rcases htail with ht | ⟨y, ht⟩ <;> subst ht
          · exact List.noConfusion he1
          · injection he1 with h' _
            exact absurd h' (by decide)
        | cons b s2 =>
          rw [List.cons_append] at he1
          injection he1 with hb he2
          cases s2 with
          | nil =>
            rcases htail with ht | ⟨y, ht⟩ <;> subst ht
            · exact List.noConfusion he2
            · injection he2 with h' _
              exact absurd h' (by decide)
          | cons c3 s3 =>
            rw [List.cons_append] at he2
            injection he2 with hc3 _
            apply hs0bs
            rw [← hc3]
            simp
    · intro he
      rw [hxe] at he
      cases s0 with
      | nil => exact hs0ne rfl
      | cons a s1 =>
        rw [List.cons_append] at he
        injection he with ha he1
        cases s1 with
        | nil =>
          rcases htail with ht | ⟨y, ht⟩ <;> subst ht
          · exact List.noConfusion he1
          · injection he1 with h' _
            exact absurd h' (by decide)
        | cons b s2 =>
          rw [List.cons_append] at he1
          injection he1 with hb he2
          have h0 := List.append_eq_nil.mp he2
          subst ha
          subst hb
          rw [h0.1] at hs0dd
          exact hs0dd rfl

/-! ## Resolution stays under an absolute working directory -/

theorem resolve_within (bs : List (List Char)) (r : List Char)
    (hbs : bs ≠ [])
    (hbsg : ∀ b ∈ bs, b ≠ [] ∧ b ≠ ['.'] ∧ b ≠ dd ∧ '/' ∉ b)
    (hr : ∀ s ∈ sepSplit r, s ≠ dd)
    (hrh : r.head? ≠ some '/') :
    resolveList ('/' :: joinSegs bs) r = '/' :: joinSegs bs
    ∨ ∃ ex, ex ≠ [] ∧ resolveList ('/' :: joinSegs bs) r
        = ('/' :: joinSegs bs) ++ '/' :: joinSegs ex := by
  have hrb : (r.head? == some '/') = false := by
    rw [beq_eq_false_iff_ne]
    exact hrh
  unfold resolveList
  rw [hrb, if_neg Bool.false_ne_true]
  have hcomb : ('/' :: joinSegs bs) ++ '/' :: r = '/' :: (joinSegs bs ++ '/' :: r) := rfl
  rw [hcomb]
  unfold resolveAbs
  have habs : ((('/' : Char) :: (joinSegs bs ++ '/' :: r)).head? == some '/') = true := rfl
  rw [if_pos habs]
  have hsplit : sepSplit ('/' :: (joinSegs bs ++ '/' :: r)) = [] :: (bs ++ sepSplit r) := by
    rw [show sepSplit ('/' :: (joinSegs bs ++ '/' :: r))
          = [] :: sepSplit (joinSegs bs ++ '/' :: r) by simp [sepSplit]]
    rw [sepSplit_append_sep]
    rw [sepSplit_joinSegs bs hbs (fun b hb => (hbsg b hb).2.2.2)]
  rw [hsplit]
  unfold normSegs
  rw [List.foldl_cons, normStep_skip false [] (Or.inl rfl), List.foldl_append]
  rw [foldl_false_push bs []
    (fun b hb => ⟨(hbsg b hb).1, (hbsg b hb).2.1, (hbsg b hb).2.2.1⟩)]
  rw [List.append_nil]
  obtain ⟨ex0, hex0⟩ := foldl_false_ext (sepSplit r) bs.reverse hr
  rw [hex0, List.reverse_append, List.reverse_reverse]
  cases hx : ex0.reverse with
  | nil =>
    left
    rw [List.append_nil]
  | cons e es =>
    right
    refine ⟨e :: es, by simp, ?_⟩
    rw [joinSegs_append bs (e :: es) hbs (by simp)]
    rfl

/-! ## Claim about path sanitization (C1) -/

/-- C1 is false as stated: an absolute input path skips both the
traversal-stripping regex and the anchoring in `path.resolve`, so
`sanitizePath` returns it unchanged even when it lies outside the
working directory; a relative input whose leading `..` is followed by a
backslash and then a separator (`..\/x`) also escapes, because the
regex consumes `..\` and leaves an absolute remainder. -/
theorem sanitizePath_escape_cex :
    sanitizePath ("/app") ("/etc/passwd") = ("/etc/passwd")
  ∧ lexWithin ("/app") (sanitizePath ("/app") ("/etc/passwd")) = false
  ∧ sanitizePath ("/app") ("..\\/x") = ("/x")
  ∧ lexWithin ("/app") (sanitizePath ("/app") ("..\\/x")) = false := by
  decide

/-- C1 amended: for every relative input (not starting with `/`) that
contains no backslash, `sanitizePath` returns an absolute path lexically
inside the working directory: normalization moves all surviving `..`
segments to the front, the regex strips them, and resolution appends
the `..`-free remainder under the anchored root.  (Absolute inputs, and
backslash-assisted inputs like `..\/x`, can land outside the root.)
The working directory is assumed absolute and in normal form: `/` then
nonempty, separator-free segments other than `.` and `..`. -/
theorem sanitizePath_relative_within_root (cwd inputPath : String) (bs : List (List Char))
    (hcwd : cwd.data = '/' :: joinSegs bs) (hbs : bs ≠ [])
    (hbsg : ∀ b ∈ bs, b ≠ [] ∧ b ≠ ['.'] ∧ b ≠ dd ∧ '/' ∉ b)
    (hrel : inputPath.data.head? ≠ some '/') (hnb : '\\' ∉ inputPath.data) :
    lexWithin cwd (sanitizePath cwd inputPath) = true := by
  obtain ⟨k, core, te, hsplit, hcore, hte⟩ := normalize_rel inputPath.data hrel hnb
  have hnorm : normalizeList inputPath.data
      = joinSegs (List.replicate k dd ++ (core ++ te)) := by
    have h0 := joinSegs_sepSplit (normalizeList inputPath.data)
    rw [hsplit] at h0
    rw [← h0, List.append_assoc]
  have hstrip : stripTraversal (normalizeList inputPath.data) = joinSegs (core ++ te) := by
    rw [hnorm, strip_dd_block, strip_core_noop core te hcore hte]
  have hrsegs : ∀ s ∈ sepSplit (joinSegs (core ++ te)), s ≠ dd := by
    by_cases hct : core ++ te = []
    · rw [hct]
      intro s hs
      simp [joinSegs, sepSplit] at hs
      subst hs
      decide
    · rw [sepSplit_joinSegs (core ++ te) hct (by
        intro s hs
        rcases List.mem_append.mp hs with h | h
        · exact (hcore s h).2.2.1
        · rcases hte with ht | ht <;> subst ht
          · simp at h
          · simp at h
            subst h
            decide)]
      intro s hs
      rcases List.mem_append.mp hs with h | h
      · exact (hcore s h).2.1
      · rcases hte with ht | ht <;> subst ht
        · simp at h
        · simp at h
          subst h
          decide
  have hrhead : (joinSegs (core ++ te)).head? ≠ some '/' := by
    cases core with
    | nil =>
      rcases hte with ht | ht <;> subst ht <;> simp [joinSegs]
    | cons s0 rest =>
      have hs0 := hcore s0 (List.mem_cons_self s0 rest)
      rw [List.cons_append, joinSegs_head s0 (rest ++ te) hs0.1]
      cases s0 with
      | nil => exact absurd rfl hs0.1
      | cons c s1 =>
        intro he
        simp at he
        exact hs0.2.2.1 (he ▸ List.mem_cons_self c s1)
  have hsan : sanitizePath cwd inputPath
      = String.mk (resolveList ('/' :: joinSegs bs) (joinSegs (core ++ te))) := by
    unfold sanitizePath
    rw [hstrip, hcwd]
  rcases resolve_within bs (joinSegs (core ++ te)) hbs hbsg hrsegs hrhead with h | ⟨ex, hexne, h⟩
  · rw [hsan, h, ← hcwd]
    have hmk : String.mk cwd.data = cwd := by cases cwd; rfl
    rw [hmk]
    unfold lexWithin
    rw [decide_eq_true rfl, Bool.true_or]
  · rw [hsan, h, ← hcwd]
    unfold lexWithin
    have hp : isPre (cwd.data ++ ['/']) (String.mk (cwd.data ++ '/' :: joinSegs ex)).data
        = true := by
      rw [data_mk]
      rw [show cwd.data ++ '/' :: joinSegs ex = (cwd.data ++ ['/']) ++ joinSegs ex by simp]
      exact isPre_append_self _ _
    rw [hp, Bool.or_true]

/-- Witness for C1 amended: many leading `../` segments resolve under
the anchored root. -/
theorem sanitizePath_relative_within_root_witness :
    sanitizePath ("/app") ("../../etc/passwd") = ("/app/etc/passwd")
  ∧ lexWithin ("/app") (sanitizePath ("/app") ("../../etc/passwd")) = true :=
  ⟨by decide,
   sanitizePath_relative_within_root ("/app") ("../../etc/passwd")
     ([['a', 'p', 'p']]) (by decide) (by decide)
     (by intro b hb; simp at hb; subst hb; refine ⟨by decide, by decide, by decide, by decide⟩)
     (by decide) (by decide)⟩
